import Mathlib

/-!
Verification development for the PlanExe core subsystems:
multi-backend LLM execution (`planexe/llm_util/llm_executor.py`),
schema registry and lenient validation (`planexe/llm_util/schema_registry.py`,
`planexe/llm_util/strict_response_model.py`), and the streaming harness/relay
(`planexe_api/streaming/conversation_harness.py`,
`planexe_api/streaming/conversation_sse_manager.py`).

The Python code is shallowly embedded: stateful methods become functions on
explicit state records, exceptions become sum types, and wall-clock data
(durations, timestamps, uuids) is omitted because no verified property
mentions it.
-/

namespace LLMExec

/-- Attempt stage, mirroring the string literals `create` / `execute` used in
`LLMAttempt(stage=...)`. -/
inductive Stage where
  | create
  | execute
deriving DecidableEq, Repr

/-- Semantics of one `LLMModelBase` descriptor: `create_llm()` either returns a
live handle of type `η` or raises an exception of type `ε`. -/
structure LLMModelSem (η ε : Type) where
  createRes : Except ε η

/-- Embedding of the `LLMAttempt` dataclass.  The `duration` and token-count
fields are omitted: they record wall-clock time and post-hoc annotations that
no claim mentions. -/
structure LLMAttempt (η α ε : Type) where
  stage : Stage
  llm_model : LLMModelSem η ε
  success : Bool
  result : Option α := none
  exception : Option ε := none

/-- Outcome of calling the `execute_function` on a live handle: return a value,
raise an ordinary exception, or raise `PipelineStopRequested`. -/
inductive WorkRes (α ε : Type) where
  | ok (v : α)
  | fail (e : ε)
  | stopRequested (e : ε)

/-- Result of `LLMExecutor._try_one_attempt`: either an `LLMAttempt` record is
produced, or the `PipelineStopRequested` raised by the work propagates. -/
inductive TryResult (η α ε : Type) where
  | stopRequested (e : ε)
  | attempted (a : LLMAttempt η α ε)

/-- Embedding of `LLMExecutor._try_one_attempt`: construct the handle (a
failure yields a failed `create`-stage attempt), then invoke the work (success
yields a successful `execute`-stage attempt, an ordinary exception a failed
one, and `PipelineStopRequested` is re-raised). -/
def _try_one_attempt (m : LLMModelSem η ε) (work : η → WorkRes α ε) :
    TryResult η α ε :=
  match m.createRes with
  | .error e =>
      .attempted { stage := .create, llm_model := m, success := false, exception := some e }
  | .ok llm =>
      match work llm with
      | .ok v =>
          .attempted { stage := .execute, llm_model := m, success := true, result := some v }
      | .fail e =>
          .attempted { stage := .execute, llm_model := m, success := false, exception := some e }
      | .stopRequested e => .stopRequested e

/-- Embedding of the `ShouldStopCallbackParameters` dataclass
(`total_duration` omitted: wall-clock time). -/
structure ShouldStopCallbackParameters (η α ε : Type) where
  last_attempt : LLMAttempt η α ε
  attempt_index : Nat
  total_attempts : Nat

/-- Behaviour of the `should_stop_callback`: return normally, raise
`PipelineStopRequested`, or raise any other exception. -/
inductive CallbackRes (ε : Type) where
  | cont
  | stopRequested (e : ε)
  | raised (e : ε)

/-- Outcome of `LLMExecutor.run`: the returned `attempt.result`, the aggregate
exhausted-all-LLMs exception carrying the attempt ledger, a propagated
`PipelineStopRequested`, or a propagated callback exception. -/
inductive RunOutcome (η α ε : Type) where
  | ok (r : Option α)
  | exhaustedAllLLMs (attempts : List (LLMAttempt η α ε))
  | pipelineStopRequested (e : ε)
  | callbackRaised (e : ε)

/-- The loop body of `LLMExecutor.run`, with the accumulated `self.attempts`
threaded explicitly.  Per the source: attempt one LLM (a raised
`PipelineStopRequested` propagates before the append), append the attempt,
consult the callback, return on success, else move to the next descriptor;
when descriptors run out, raise the aggregate exception over the ledger. -/
def runFrom (work : η → WorkRes α ε)
    (cb : ShouldStopCallbackParameters η α ε → CallbackRes ε) (total : Nat) :
    List (LLMModelSem η ε) → Nat → List (LLMAttempt η α ε) →
    RunOutcome η α ε × List (LLMAttempt η α ε)
  | [], _, acc => (.exhaustedAllLLMs acc, acc)
  | m :: rest, idx, acc =>
      match _try_one_attempt m work with
      | .stopRequested e => (.pipelineStopRequested e, acc)
      | .attempted a =>
          let acc' := acc ++ [a]
          match cb { last_attempt := a, attempt_index := idx, total_attempts := total } with
          | .stopRequested e => (.pipelineStopRequested e, acc')
          | .raised e => (.callbackRaised e, acc')
          | .cont =>
              if a.success then (.ok a.result, acc')
              else runFrom work cb total rest (idx + 1) acc'

/-- Embedding of `LLMExecutor.run`: reset the ledger and iterate the
descriptors in list order.  (The constructor rejects an empty descriptor list,
so callers only reach `run` with nonempty `models`.) -/
def run (models : List (LLMModelSem η ε)) (work : η → WorkRes α ε)
    (cb : ShouldStopCallbackParameters η α ε → CallbackRes ε) :
    RunOutcome η α ε × List (LLMAttempt η α ε) :=
  runFrom work cb models.length models 0 []

/-- The attempt a descriptor would contribute to the ledger, or `none` when
its work raises the cancellation signal. -/
def attemptResult (work : η → WorkRes α ε) (m : LLMModelSem η ε) :
    Option (LLMAttempt η α ε) :=
  match _try_one_attempt m work with
  | .attempted a => some a
  | .stopRequested _ => none

/-- True when the try outcome is a propagating `PipelineStopRequested`. -/
def TryResult.isStop : TryResult η α ε → Bool
  | .stopRequested _ => true
  | .attempted _ => false

/-- True when the try outcome is a successful attempt. -/
def TryResult.isSuccess : TryResult η α ε → Bool
  | .attempted a => a.success
  | .stopRequested _ => false

/-- The exception object delivered in a `run_batch_async` slot when that
item's `run_async` raised. -/
inductive RunExc (η α ε : Type) where
  | exhaustedAllLLMs (attempts : List (LLMAttempt η α ε))
  | pipelineStopRequested (e : ε)
  | callbackRaised (e : ε)

/-- One slot of `run_batch_async`: the value returned by `run_async` for this
work item, or the exception object it raised (captured by
`asyncio.gather(..., return_exceptions=True)`). -/
def runSlot (models : List (LLMModelSem η ε)) (work : η → WorkRes α ε)
    (cb : ShouldStopCallbackParameters η α ε → CallbackRes ε) :
    Except (RunExc η α ε) (Option α) :=
  match run models work cb with
  | (.ok r, _) => .ok r
  | (.exhaustedAllLLMs atts, _) => .error (.exhaustedAllLLMs atts)
  | (.pipelineStopRequested e, _) => .error (.pipelineStopRequested e)
  | (.callbackRaised e, _) => .error (.callbackRaised e)

/-- Embedding of `LLMExecutor.run_batch_async`.  An empty input returns `[]`
before the semaphore is engaged; otherwise `asyncio.gather` with
`return_exceptions=True` produces one slot per work item in input order, each
holding the item's result or its raised exception.  The semaphore bound only
limits in-flight concurrency and does not affect slot values, so it has no
observable counterpart in this sequential embedding. -/
def run_batch_async (models : List (LLMModelSem η ε))
    (cb : ShouldStopCallbackParameters η α ε → CallbackRes ε)
    (works : List (η → WorkRes α ε)) : List (Except (RunExc η α ε) (Option α)) :=
  match works with
  | [] => []
  | _ :: _ => works.map (fun w => runSlot models w cb)

end LLMExec

namespace SchemaReg

/-- The compiled JSON schema document produced by `model.model_json_schema()`.
`register_schema` only ever copies and compares documents structurally
(`deepcopy` and `==`), so the document is carried as an opaque value with
structural equality. -/
abbrev SchemaDoc := String

/-- The data of a Pydantic model class as seen by the registry: its defining
module, its class name, and its compiled schema document.  The source-file
path recorded by `inspect.getsourcefile` is omitted (filesystem metadata no
claim mentions). -/
structure PyModelType where
  moduleName : String
  name : String
  schemaDoc : SchemaDoc
deriving DecidableEq, Repr

/-- Embedding of the `SchemaRegistryEntry` dataclass.  `entryId` models Python
object identity: every freshly constructed entry receives a fresh id, so two
entries are the identical object exactly when their ids coincide. -/
structure SchemaRegistryEntry where
  entryId : Nat
  qualified_name : String
  sanitized_name : String
  schema : SchemaDoc
  moduleName : String
deriving DecidableEq, Repr

/-- The module-level `_SCHEMA_REGISTRY` dict plus the allocator for entry
identities. -/
structure RegistryState where
  nextId : Nat
  entries : List (String × SchemaRegistryEntry)
deriving DecidableEq, Repr

/-- Membership test of the regex character class `[^0-9A-Za-z_-]` used by
`_INVALID_NAME_CHARS` (negated: the valid characters). -/
def isValidLabelChar (c : Char) : Bool :=
  (c.isDigit || c.isAlpha) || (c = '_' || c = '-')

/-- Python `str.rstrip("_")` on a character list. -/
def rstripUnderscore (l : List Char) : List Char :=
  (l.reverse.dropWhile (fun c => c = '_')).reverse

/-- `_INVALID_NAME_CHARS.sub("_", s).rstrip("_")`. -/
def substituteAndRstrip (s : String) : String :=
  String.mk (rstripUnderscore (s.data.map (fun c => if isValidLabelChar c then c else '_')))

/-- Embedding of `sanitize_schema_label`: an absent or empty raw name is
replaced by the fallback; invalid characters become underscores and trailing
underscores are stripped; if the result is empty the sanitized fallback is
used, and failing that the fixed label `PlanExeSchema`. -/
def sanitize_schema_label (raw_name : Option String) (fallback : String) : String :=
  let rawName :=
    match raw_name with
    | none => fallback
    | some s => if s = "" then fallback else s
  let sanitized := substituteAndRstrip rawName
  if sanitized = "" then
    let fromFallback := substituteAndRstrip fallback
    if fromFallback = "" then "PlanExeSchema" else fromFallback
  else sanitized

/-- `registry[key] = entry` on the assoc-list model of the registry dict:
replace the existing binding for `key`, else append a new one. -/
def storeReg : List (String × SchemaRegistryEntry) → String → SchemaRegistryEntry →
    List (String × SchemaRegistryEntry)
  | [], k, v => [(k, v)]
  | (k', v') :: rest, k, v =>
      if k' = k then (k, v) :: rest else (k', v') :: storeReg rest k v

/-- `registry.get(key)` on the assoc-list model. -/
def lookupReg : List (String × SchemaRegistryEntry) → String → Option SchemaRegistryEntry
  | [], _ => none
  | (k', v) :: rest, k => if k' = k then some v else lookupReg rest k

/-- Embedding of `_compute_registry_key`. -/
def _compute_registry_key (m : PyModelType) : String :=
  m.moduleName ++ "." ++ m.name

/-- Embedding of `register_schema`: compute the key, the (deep-copied) schema
document and the sanitized label; if a cached entry exists with an identical
document and label, return it unchanged; otherwise build a fresh entry and
store it under the key. -/
def register_schema (m : PyModelType) (st : RegistryState) :
    SchemaRegistryEntry × RegistryState :=
  let key := _compute_registry_key m
  let schema_copy := m.schemaDoc
  let sanitized_name := sanitize_schema_label (some m.name) m.name
  let entry : SchemaRegistryEntry :=
    { entryId := st.nextId, qualified_name := key, sanitized_name := sanitized_name,
      schema := schema_copy, moduleName := m.moduleName }
  match lookupReg st.entries key with
  | some existing =>
      if existing.schema = schema_copy ∧ existing.sanitized_name = sanitized_name then
        (existing, st)
      else
        (entry, { nextId := st.nextId + 1, entries := storeReg st.entries key entry })
  | none =>
      (entry, { nextId := st.nextId + 1, entries := storeReg st.entries key entry })

/-- Embedding of the `SchemaPolicy` dataclass, generic over the type of the
override values (arbitrary Python objects in the source).  The mapping of
default overrides is an assoc list with dict lookup semantics. -/
structure SchemaPolicy (β : Type) where
  required_fields : List String := []
  default_overrides : List (String × β) := []
  allow_missing : Bool := true

end SchemaReg

namespace StrictModel

/-- Python runtime values as far as the lenient validator manipulates them:
it only ever stores, copies and looks them up, so constructors cover the
shapes that `_derive_default` can produce plus an opaque `vNone`.  Float
values are carried symbolically (`vFloat 0` is the literal `0.0`); no float
arithmetic occurs anywhere in the validator. -/
inductive PValue where
  | vNone
  | vStr (s : String)
  | vInt (n : Int)
  | vFloat (units : Int)
  | vBool (b : Bool)
  | vEnum (member : String)
  | vList (xs : List PValue)
  | vDict (entries : List (String × PValue))

/-- The type annotation of a model field, as classified by `_derive_default`
via `issubclass(..., Enum)`, `get_origin` and identity tests against
`str`/`int`/`float`/`bool`.  `enumT` carries the enumeration members in
declaration order; `optionalT` is `Optional[...]`; `otherT` stands for any
annotation deriving no default (nested models, opaque unions, bare
containers without parameters). -/
inductive FieldType where
  | enumT (members : List String)
  | listT
  | setT
  | tupleT
  | dictT
  | strT
  | intT
  | floatT
  | boolT
  | optionalT (t : FieldType)
  | otherT

/-- One declared Pydantic field: name, annotation, and the declared
`default` / `default_factory` (a factory is modelled by the value it
produces).  A field is required exactly when it declares neither. -/
structure FieldSpec where
  name : String
  annotation : FieldType
  default : Option PValue := none
  defaultFactory : Option PValue := none

/-- The declared shape of a `StrictResponseModel` subclass:
`cls.model_fields` in declaration order. -/
structure ModelSpec where
  fields : List FieldSpec

/-- A JSON payload handed to `model_validate`, i.e. a Python dict. -/
abbrev Payload := List (String × PValue)

/-- A validated model instance: the declared fields with their values
(runtime extras are dropped by `model_post_init`, so nothing else remains). -/
abbrev ModelInstance := List (String × PValue)

/-- The policy type instantiated at the validator's value type. -/
abbrev Policy := SchemaReg.SchemaPolicy PValue

/-- Dict lookup on an assoc list (first binding wins, as keys are unique in a
Python dict). -/
def lookupStr : List (String × β) → String → Option β
  | [], _ => none
  | (k', v) :: rest, k => if k' = k then some v else lookupStr rest k

/-- Python `name in mapping`. -/
def hasKey (l : List (String × β)) (k : String) : Bool :=
  (lookupStr l k).isSome

/-- One Pydantic validation error entry, restricted to the two keys the
repair logic reads: `type` and `loc`.  The base validator modelled below
only emits entries with `errType = "missing"` and a one-element string
location. -/
structure ValErrorEntry where
  errType : String
  loc : List String
deriving DecidableEq, Repr

/-- Embedding of `_unwrap_optional`: strip `Optional`, recursing into the
first non-`None` union argument. -/
def _unwrap_optional : FieldType → FieldType
  | .optionalT t => _unwrap_optional t
  | t => t

/-- Embedding of `_derive_default`: the declared default (or factory value)
wins; otherwise the first enumeration member, the empty list for
list/set/tuple origins, the empty dict for dict origins, `"TBD"` for `str`,
`0` for `int`, `0.0` for `float`, `False` for `bool`, and `None` (no
derivable default) for anything else. -/
def _derive_default (ms : ModelSpec) (field_name : String) : Option PValue :=
  match ms.fields.find? (fun f => f.name = field_name) with
  | none => none
  | some f =>
      match f.default with
      | some d => some d
      | none =>
          match f.defaultFactory with
          | some d => some d
          | none =>
              match _unwrap_optional f.annotation with
              | .enumT (m :: _) => some (.vEnum m)
              | .enumT [] => none
              | .listT => some (.vList [])
              | .setT => some (.vList [])
              | .tupleT => some (.vList [])
              | .dictT => some (.vDict [])
              | .strT => some (.vStr "TBD")
              | .intT => some (.vInt 0)
              | .floatT => some (.vFloat 0)
              | .boolT => some (.vBool false)
              | .optionalT _ => none
              | .otherT => none

/-- The loop body of `_inject_defaults` for one target field name.  The
`_clone` copy of the inserted value is the identity on these structural
values. -/
def injectStep (ms : ModelSpec) (policy : Policy) (hydrated : Payload)
    (name : String) : Payload :=
  if hasKey hydrated name then hydrated
  else
    match lookupStr policy.default_overrides name with
    | some v => hydrated ++ [(name, v)]
    | none =>
        match _derive_default ms name with
        | some d => hydrated ++ [(name, d)]
        | none => hydrated

/-- Embedding of `_inject_defaults`: walk the target field names (all declared
fields when `field_names` is absent); for each name not already present,
insert the policy override if one exists, else the derived default if one
exists.  Insertion appends, mirroring dict assignment of a fresh key. -/
def _inject_defaults (ms : ModelSpec) (policy : Policy) (data : Payload)
    (field_names : Option (List String)) : Payload :=
  let targets : List String :=
    match field_names with
    | some ns => ns
    | none => ms.fields.map (fun f => f.name)
  targets.foldl (injectStep ms policy) data

/-- The names of the required fields (no default and no factory), in
declaration order. -/
def requiredFields (ms : ModelSpec) : List String :=
  (ms.fields.filter (fun f => f.default.isNone && f.defaultFactory.isNone)).map
    (fun f => f.name)

/-- The value a successfully validated instance stores for a field: the
payload value if present, else the field's own declared default. -/
def fieldValue (f : FieldSpec) (data : Payload) : PValue :=
  match lookupStr data f.name with
  | some v => v
  | none =>
      match f.default with
      | some d => d
      | none => (f.defaultFactory).getD .vNone

/-- The instance built from a payload that passed validation. -/
def mkInstance (ms : ModelSpec) (data : Payload) : ModelInstance :=
  ms.fields.map (fun f => (f.name, fieldValue f data))

/-- The Pydantic base validator (`super().model_validate`), modelled on the
dimension the repair logic inspects: a payload missing required fields fails
with one `missing`-type error per absent required field, in field order;
otherwise the declared fields are materialised (extras are dropped by
`model_post_init`). -/
def baseValidate (ms : ModelSpec) (data : Payload) :
    Except (List ValErrorEntry) ModelInstance :=
  let missing := (requiredFields ms).filter (fun n => !(hasKey data n))
  if missing.isEmpty then .ok (mkInstance ms data)
  else .error (missing.map (fun n => { errType := "missing", loc := [n] }))

/-- The loop body of `_collect_missing` for one error entry. -/
def collectStep (missing : List String) (err : ValErrorEntry) : List String :=
  if err.errType ≠ "missing" then missing
  else
    match err.loc with
    | [] => missing
    | field_name :: _ =>
        if missing.contains field_name then missing else missing ++ [field_name]

/-- Embedding of `_collect_missing`: keep the first location component of each
`missing`-type error, deduplicated in first-seen order. -/
def _collect_missing (errs : List ValErrorEntry) : List String :=
  errs.foldl collectStep []

/-- The payload handed to the first validation: the raw mapping with the
policy's override fields injected when any overrides exist, else the raw
mapping itself. -/
def preparedPayload (ms : ModelSpec) (policy : Policy) (data : Payload) : Payload :=
  if policy.default_overrides.isEmpty then data
  else _inject_defaults ms policy data (some (policy.default_overrides.map (fun p => p.1)))

/-- Embedding of `StrictResponseModel.model_validate` on dict payloads:
validate the override-prepared payload; on failure, re-raise unless the
policy allows missing fields and the failure involves missing fields, in
which case inject defaults for exactly the reported missing fields into the
original mapping and validate that patched payload once, propagating
whatever that second validation produces. -/
def model_validate (ms : ModelSpec) (policy : Policy) (obj : Payload) :
    Except (List ValErrorEntry) ModelInstance :=
  let prepared := preparedPayload ms policy obj
  match baseValidate ms prepared with
  | .ok inst => .ok inst
  | .error exc =>
      if !policy.allow_missing then .error exc
      else
        let missing_fields := _collect_missing exc
        if missing_fields.isEmpty then .error exc
        else baseValidate ms (_inject_defaults ms policy obj (some missing_fields))

/-- The field value carried by a validation result, `none` when validation
failed or the field is absent from the instance. -/
def validatedField (r : Except (List ValErrorEntry) ModelInstance) (k : String) :
    Option PValue :=
  match r with
  | .ok inst => lookupStr inst k
  | .error _ => none

/-- True when validation succeeded. -/
def validationOk (r : Except (List ValErrorEntry) ModelInstance) : Bool :=
  match r with
  | .ok _ => true
  | .error _ => false

end StrictModel

namespace Streaming

/-- Embedding of the `ConversationSummary` dataclass.  The usage map is
carried opaquely. -/
structure ConversationSummary where
  text : String
  reasoning : Option String := none
  json_chunks : List String := []
  usage : Option (List (String × Nat)) := none
deriving DecidableEq, Repr

/-- The events a harness pushes onto its queue.  The wall-clock timestamp
fields (`startedAt`, `timestamp`, `completedAt`) are omitted; the
`stream.complete` payload carries the frozen summary. -/
inductive HEvent where
  | init (conversationId responseId modelKey : String)
  | chunk (conversationId responseId kind delta : String)
  | complete (conversationId responseId : String) (summary : ConversationSummary)
  | error (conversationId responseId : String) (message : String)
deriving DecidableEq, Repr

/-- Embedding of the `ConversationHarness` state: identity fields, the three
delta buffers, the stored summary, the completion flag, and the FIFO event
queue (append at the tail, consume at the head). -/
structure Harness where
  conversationId : String
  responseId : String
  modelKey : String
  textParts : List String
  reasoningParts : List String
  jsonParts : List String
  summary : Option ConversationSummary
  completed : Bool
  queue : List HEvent
deriving DecidableEq, Repr

/-- The harness constructor (`__init__`): empty buffers, no summary, fresh
queue, not completed. -/
def mkHarness (conversation_id response_id model_key : String) : Harness :=
  { conversationId := conversation_id, responseId := response_id,
    modelKey := model_key, textParts := [], reasoningParts := [], jsonParts := [],
    summary := none, completed := false, queue := [] }

/-- Embedding of `reset_for_response`: install the new response id (and model
key when a truthy one is given), clear every buffer, drop the summary,
re-arm the completion event and replace the queue. -/
def reset_for_response (h : Harness) (response_id : String)
    (model_key : Option String) : Harness :=
  { h with
    responseId := response_id,
    modelKey :=
      match model_key with
      | some s => if s = "" then h.modelKey else s
      | none => h.modelKey,
    textParts := [], reasoningParts := [], jsonParts := [],
    summary := none, completed := false, queue := [] }

/-- Embedding of `emit_init`: push one `stream.init` event. -/
def emit_init (h : Harness) : Harness :=
  { h with queue := h.queue ++ [.init h.conversationId h.responseId h.modelKey] }

/-- Embedding of `emit_chunk`: append the delta to the buffer selected by
`kind` (an unknown kind touches no buffer) and push a `stream.chunk` event
carrying only the delta. -/
def emit_chunk (h : Harness) (kind delta : String) : Harness :=
  let h1 :=
    if kind = "text" then { h with textParts := h.textParts ++ [delta] }
    else if kind = "reasoning" then { h with reasoningParts := h.reasoningParts ++ [delta] }
    else if kind = "json" then { h with jsonParts := h.jsonParts ++ [delta] }
    else h
  { h1 with queue := h1.queue ++ [.chunk h.conversationId h.responseId kind delta] }

/-- The summary `emit_complete` freezes from the current buffers: the joined
primary text, the newline-joined reasoning (or `None` when no reasoning was
buffered), the ordered structured fragments, and the usage map. -/
def freezeSummary (h : Harness) (usage : Option (List (String × Nat))) :
    ConversationSummary :=
  { text := String.join h.textParts,
    reasoning :=
      if h.reasoningParts.isEmpty then none
      else some (String.intercalate "\n" h.reasoningParts),
    json_chunks := h.jsonParts,
    usage := usage }

/-- Embedding of `emit_complete`: store the frozen summary, push one
`stream.complete` event carrying it, and set the completion flag.  The
source performs these steps unconditionally on every call. -/
def emit_complete (h : Harness) (usage : Option (List (String × Nat))) :
    Harness :=
  let summary := freezeSummary h usage
  { h with
    summary := some summary,
    queue := h.queue ++ [.complete h.conversationId h.responseId summary],
    completed := true }

/-- Embedding of `emit_error`: push one `stream.error` event and set the
completion flag (the stored summary is untouched). -/
def emit_error (h : Harness) (message : String) : Harness :=
  { h with
    queue := h.queue ++ [.error h.conversationId h.responseId message],
    completed := true }

/-- Terminal events, as tested by the `events` iterator and the SSE
generator: `stream.complete` and `stream.error`. -/
def HEvent.isTerminal : HEvent → Bool
  | .complete _ _ _ => true
  | .error _ _ _ => true
  | .init _ _ _ => false
  | .chunk _ _ _ _ => false

/-- What `ConversationSSEManager._event_generator` yields to the listener:
either a forwarded harness event or a synthesized heartbeat. -/
inductive SSEOut where
  | fwd (e : HEvent)
  | heartbeat
deriving DecidableEq, Repr

/-- A terminal forwarded event on the listener side. -/
def SSEOut.isTerminalOut : SSEOut → Bool
  | .fwd e => e.isTerminal
  | .heartbeat => false

/-- Embedding of `_event_generator`.  The input is the schedule of queue
interactions, in order: `some e` is an event pulled from the harness queue,
`none` is a heartbeat timeout.  Each pulled event is forwarded; after a
`stream.complete` or `stream.error` the loop breaks, so the remaining
schedule is never consumed; a timeout yields a heartbeat and the loop
continues. -/
def _event_generator : List (Option HEvent) → List SSEOut
  | [] => []
  | none :: rest => .heartbeat :: _event_generator rest
  | some e :: rest => .fwd e :: if e.isTerminal then [] else _event_generator rest

end Streaming

namespace Streaming

/-- Folding text chunks into a harness appends the deltas to the primary-text
buffer and leaves the other buffers untouched. -/
theorem foldl_emit_chunk_text (ds : List String) :
    ∀ h : Harness,
      ((ds.foldl (fun hh d => emit_chunk hh "text" d) h).textParts = h.textParts ++ ds
        ∧ (ds.foldl (fun hh d => emit_chunk hh "text" d) h).reasoningParts = h.reasoningParts
        ∧ (ds.foldl (fun hh d => emit_chunk hh "text" d) h).jsonParts = h.jsonParts) := by
  induction ds with
  | nil => intro h; simp
  | cons d rest ih =>
      intro h
      have := ih (emit_chunk h "text" d)
      simpa [emit_chunk, List.append_assoc] using this

/-- C7: emitting primary-text deltas d1..dn and then completing yields a
summary whose primary text is the concatenation of the deltas in emission
order, and completing immediately after a reset yields an empty primary
text. -/
theorem emit_complete_joins_text_deltas (cid rid mk : String) (ds : List String)
    (usage : Option (List (String × Nat))) (h : Harness) (rid' : String)
    (mk' : Option String) :
    ((emit_complete (ds.foldl (fun hh d => emit_chunk hh "text" d) (mkHarness cid rid mk))
        usage).summary).map ConversationSummary.text = some (String.join ds)
    ∧ ((emit_complete (reset_for_response h rid' mk') usage).summary).map
        ConversationSummary.text = some "" := by
  constructor
  · have hfold := (foldl_emit_chunk_text ds (mkHarness cid rid mk)).1
    have hnil : (mkHarness cid rid mk).textParts = [] := rfl
    rw [hnil, List.nil_append] at hfold
    simp [emit_complete, freezeSummary, hfold]
  · simp [emit_complete, freezeSummary, reset_for_response, String.join]

end Streaming

namespace Streaming

/-- C8 counterexample: a harness that has already completed a turn receives a
second `emit_complete`, and the second call pushes one more `stream.complete`
event onto the queue instead of being a no-op. -/
theorem emit_complete_not_idempotent_cex :
    (emit_complete (mkHarness "c" "r" "m") none).completed = true
    ∧ (emit_complete (mkHarness "c" "r" "m") none).queue.length = 1
    ∧ (emit_complete (emit_complete (mkHarness "c" "r" "m") none) none).queue.length = 2 := by
  exact ⟨rfl, rfl, rfl⟩

/-- C8 amended: `emit_complete` is not guarded by the completion flag; even on
an already-completed harness it appends exactly one further `stream.complete`
event and overwrites the stored summary with a fresh freeze of the current
buffers. -/
theorem emit_complete_after_completed_appends (h : Harness)
    (usage : Option (List (String × Nat))) (_hc : h.completed = true) :
    (emit_complete h usage).queue
        = h.queue ++ [HEvent.complete h.conversationId h.responseId (freezeSummary h usage)]
    ∧ (emit_complete h usage).summary = some (freezeSummary h usage)
    ∧ (emit_complete h usage).completed = true :=
  ⟨rfl, rfl, rfl⟩

/-- Witness for the amended C8 theorem at a concrete completed harness. -/
theorem emit_complete_after_completed_appends_witness :
    (emit_complete (emit_complete (mkHarness "c" "r" "m") none) none).queue
      = (emit_complete (mkHarness "c" "r" "m") none).queue
        ++ [HEvent.complete "c" "r"
              (freezeSummary (emit_complete (mkHarness "c" "r" "m") none) none)] :=
  (emit_complete_after_completed_appends (emit_complete (mkHarness "c" "r" "m") none)
    none rfl).1

/-- C9: in the stream the SSE generator forwards to the listener, a forwarded
terminal event (`stream.complete` or `stream.error`) is followed by nothing at
all - in particular by no `stream.chunk` or `stream.init` - and at most one
terminal event is ever forwarded. -/
theorem event_generator_terminal_is_last (arrivals : List (Option HEvent)) :
    ((_event_generator arrivals).countP SSEOut.isTerminalOut ≤ 1)
    ∧ (∀ (i : Nat) (e : HEvent), (_event_generator arrivals)[i]? = some (SSEOut.fwd e) →
        e.isTerminal = true → ∀ (j : Nat), i < j → (_event_generator arrivals)[j]? = none) := by
  induction arrivals with
  | nil =>
      refine ⟨by simp [_event_generator], ?_⟩
      intro i e hi
      simp [_event_generator] at hi
  | cons a rest ih =>
      obtain ⟨ih1, ih2⟩ := ih
      cases a with
      | none =>
          refine ⟨?_, ?_⟩
          · simpa [_event_generator, List.countP_cons, SSEOut.isTerminalOut] using ih1
          · intro i e hi hterm j hij
            cases j with
            | zero => omega
            | succ j' =>
                cases i with
                | zero => simp [_event_generator] at hi
                | succ i' =>
                    simp only [_event_generator, List.getElem?_cons_succ] at hi ⊢
                    exact ih2 i' e hi hterm j' (by omega)
      | some e0 =>
          by_cases hterm0 : e0.isTerminal = true
          · refine ⟨?_, ?_⟩
            · simp [_event_generator, hterm0, List.countP_cons, SSEOut.isTerminalOut]
            · intro i e hi hterm j hij
              cases i with
              | zero =>
                  cases j with
                  | zero => omega
                  | succ j' => simp [_event_generator, hterm0]
              | succ i' => simp [_event_generator, hterm0] at hi
          · have hterm0' : e0.isTerminal = false := by
              cases hb : e0.isTerminal
              · rfl
              · exact absurd hb hterm0
            refine ⟨?_, ?_⟩
            · simpa [_event_generator, hterm0', List.countP_cons, SSEOut.isTerminalOut]
                using ih1
            · intro i e hi hterm j hij
              cases j with
              | zero => omega
              | succ j' =>
                  cases i with
                  | zero =>
                      have he : e0 = e := by
                        simpa [_event_generator, hterm0'] using hi
                      rw [← he, hterm0'] at hterm
                      simp at hterm
                  | succ i' =>
                      simp only [_event_generator, hterm0', if_false,
                        List.getElem?_cons_succ] at hi ⊢
                      exact ih2 i' e hi hterm j' (by omega)

/-- Witness for C9 on a concrete schedule: an init chunk, a heartbeat
timeout, a terminal complete, then a chunk that the generator never
forwards. -/
theorem event_generator_terminal_is_last_witness :
    (_event_generator [some (HEvent.init "c" "r" "m"), none,
        some (HEvent.complete "c" "r" { text := "x" }),
        some (HEvent.chunk "c" "r" "text" "y")])[3]? = none :=
  (event_generator_terminal_is_last _).2 2 (HEvent.complete "c" "r" { text := "x" })
    (by rfl) (by rfl) 3 (by omega)

end Streaming

namespace LLMExec

/-- C2: `run_batch_async` on an empty work list returns the empty list; on M
work items it returns exactly M slots in input order, where slot i holds the
result or the raised exception of running item i, independently of every
other slot (no fail-fast). -/
theorem run_batch_async_slots (models : List (LLMModelSem η ε))
    (cb : ShouldStopCallbackParameters η α ε → CallbackRes ε)
    (works : List (η → WorkRes α ε)) (i : Nat) :
    run_batch_async models cb ([] : List (η → WorkRes α ε)) = []
    ∧ (run_batch_async models cb works).length = works.length
    ∧ (run_batch_async models cb works)[i]? = (works[i]?).map (fun w => runSlot models w cb) := by
  refine ⟨rfl, ?_, ?_⟩
  · cases works with
    | nil => rfl
    | cons w ws => simp [run_batch_async]
  · cases works with
    | nil => simp [run_batch_async]
    | cons w ws =>
        have hmap : run_batch_async models cb (w :: ws)
            = (w :: ws).map (fun w => runSlot models w cb) := rfl
        rw [hmap, List.getElem?_map]

end LLMExec

namespace SchemaReg

/-- C6: `sanitize_schema_label` enforces no 64-character cap, although its own
docstring promises a label satisfying the 64-character OpenAI constraint: a
65-character raw name of valid characters is returned unchanged, with
length 65. -/
theorem sanitize_schema_label_no_length_cap :
    sanitize_schema_label (some (String.mk (List.replicate 65 'a'))) "fallback"
        = String.mk (List.replicate 65 'a')
    ∧ (sanitize_schema_label (some (String.mk (List.replicate 65 'a'))) "fallback").length
        = 65 := by
  exact ⟨by decide, by decide⟩

/-- Looking up the key just stored finds the stored entry. -/
theorem lookupReg_storeReg_self (k : String) (v : SchemaRegistryEntry) :
    ∀ l : List (String × SchemaRegistryEntry), lookupReg (storeReg l k v) k = some v := by
  intro l
  induction l with
  | nil => simp [storeReg, lookupReg]
  | cons p rest ih =>
      by_cases hk : p.1 = k
      · simp [storeReg, hk, lookupReg]
      · simp [storeReg, hk, lookupReg, ih]

/-- When the cached entry matches the freshly computed document and label,
`register_schema` returns exactly the cached entry and leaves the registry
state untouched. -/
theorem register_schema_hit (m : PyModelType) (st : RegistryState)
    (e : SchemaRegistryEntry)
    (hl : lookupReg st.entries (_compute_registry_key m) = some e)
    (hs : e.schema = m.schemaDoc)
    (hn : e.sanitized_name = sanitize_schema_label (some m.name) m.name) :
    register_schema m st = (e, st) := by
  simp only [register_schema]
  rw [hl]
  dsimp only
  rw [if_pos ⟨hs, hn⟩]

/-- When the cached entry is stale (different document or label),
`register_schema` allocates a fresh entry and stores it over the key. -/
theorem register_schema_stale (m : PyModelType) (st : RegistryState)
    (e : SchemaRegistryEntry)
    (hl : lookupReg st.entries (_compute_registry_key m) = some e)
    (hcond : ¬(e.schema = m.schemaDoc
        ∧ e.sanitized_name = sanitize_schema_label (some m.name) m.name)) :
    register_schema m st =
      ({ entryId := st.nextId, qualified_name := _compute_registry_key m,
         sanitized_name := sanitize_schema_label (some m.name) m.name,
         schema := m.schemaDoc, moduleName := m.moduleName },
       { nextId := st.nextId + 1,
         entries := storeReg st.entries (_compute_registry_key m)
           { entryId := st.nextId, qualified_name := _compute_registry_key m,
             sanitized_name := sanitize_schema_label (some m.name) m.name,
             schema := m.schemaDoc, moduleName := m.moduleName } }) := by
  simp only [register_schema]
  rw [hl]
  dsimp only
  rw [if_neg hcond]

/-- After any registration, the registry maps the model's key to the entry
that was returned. -/
theorem register_schema_lookup (m : PyModelType) (st : RegistryState) :
    lookupReg (register_schema m st).2.entries (_compute_registry_key m)
      = some (register_schema m st).1 := by
  simp only [register_schema]
  cases hl : lookupReg st.entries (_compute_registry_key m) with
  | none => dsimp only; exact lookupReg_storeReg_self _ _ _
  | some existing =>
      dsimp only
      by_cases hc : existing.schema = m.schemaDoc
          ∧ existing.sanitized_name = sanitize_schema_label (some m.name) m.name
      · rw [if_pos hc]; exact hl
      · rw [if_neg hc]; exact lookupReg_storeReg_self _ _ _

/-- The entry returned by `register_schema` always carries the freshly
computed document and label. -/
theorem register_schema_entry_fields (m : PyModelType) (st : RegistryState) :
    (register_schema m st).1.schema = m.schemaDoc
    ∧ (register_schema m st).1.sanitized_name
        = sanitize_schema_label (some m.name) m.name := by
  simp only [register_schema]
  cases hl : lookupReg st.entries (_compute_registry_key m) with
  | none => exact ⟨rfl, rfl⟩
  | some existing =>
      dsimp only
      by_cases hc : existing.schema = m.schemaDoc
          ∧ existing.sanitized_name = sanitize_schema_label (some m.name) m.name
      · rw [if_pos hc]; exact hc
      · rw [if_neg hc]; exact ⟨rfl, rfl⟩

/-- C5: re-registering a model whose compiled document and sanitized label are
unchanged returns the identical cached entry - same allocation identity, and
the registry state (including the identity allocator) is untouched - while
registering a model with the same type identity but a changed document or
label replaces the cache entry for that key with a freshly allocated one. -/
theorem register_schema_idempotent_and_replaces (st : RegistryState)
    (m m' : PyModelType) :
    register_schema m (register_schema m st).2
        = ((register_schema m st).1, (register_schema m st).2)
    ∧ (_compute_registry_key m' = _compute_registry_key m →
        (m'.schemaDoc ≠ (register_schema m st).1.schema
          ∨ sanitize_schema_label (some m'.name) m'.name
              ≠ (register_schema m st).1.sanitized_name) →
        ((register_schema m' (register_schema m st).2).1.entryId
            = (register_schema m st).2.nextId
          ∧ (register_schema m' (register_schema m st).2).1.schema = m'.schemaDoc
          ∧ (register_schema m' (register_schema m st).2).1 ≠ (register_schema m st).1
          ∧ lookupReg (register_schema m' (register_schema m st).2).2.entries
              (_compute_registry_key m)
              = some (register_schema m' (register_schema m st).2).1)) := by
  obtain ⟨hs1, hn1⟩ := register_schema_entry_fields m st
  have hl1 := register_schema_lookup m st
  constructor
  · exact register_schema_hit m (register_schema m st).2 (register_schema m st).1 hl1 hs1 hn1
  · intro hk hdiff
    have hl1' : lookupReg (register_schema m st).2.entries (_compute_registry_key m')
        = some (register_schema m st).1 := by rw [hk]; exact hl1
    have hcond : ¬((register_schema m st).1.schema = m'.schemaDoc
        ∧ (register_schema m st).1.sanitized_name
            = sanitize_schema_label (some m'.name) m'.name) := by
      rintro ⟨h1, h2⟩
      rcases hdiff with hd | hd
      · exact hd h1.symm
      · exact hd h2.symm
    have hrepl := register_schema_stale m' (register_schema m st).2
      (register_schema m st).1 hl1' hcond
    refine ⟨by rw [hrepl], by rw [hrepl], ?_, ?_⟩
    · rw [hrepl]
      intro heq
      rcases hdiff with hd | hd
      · exact hd (by rw [← heq])
      · exact hd (by rw [← heq])
    · rw [hrepl, ← hk]
      exact lookupReg_storeReg_self _ _ _

/-- Witness for C5 at a concrete registry: registering the same model twice
returns the cached entry and state; registering a same-key model with a
changed document allocates entry id 1. -/
theorem register_schema_idempotent_and_replaces_witness :
    register_schema ⟨"mod", "A", "doc1"⟩
        (register_schema ⟨"mod", "A", "doc1"⟩ ⟨0, []⟩).2
      = ((register_schema ⟨"mod", "A", "doc1"⟩ ⟨0, []⟩).1,
         (register_schema ⟨"mod", "A", "doc1"⟩ ⟨0, []⟩).2)
    ∧ (register_schema ⟨"mod", "A", "doc2"⟩
        (register_schema ⟨"mod", "A", "doc1"⟩ ⟨0, []⟩).2).1.entryId = 1 := by
  have h := register_schema_idempotent_and_replaces ⟨0, []⟩ ⟨"mod", "A", "doc1"⟩
    ⟨"mod", "A", "doc2"⟩
  refine ⟨h.1, ?_⟩
  have h2 := (h.2 (by decide) (Or.inl (by decide))).1
  exact h2

end SchemaReg

namespace LLMExec

/-- A try outcome that is not a propagating stop is a recorded attempt. -/
theorem attempted_of_not_stop (m : LLMModelSem η ε) (work : η → WorkRes α ε)
    (h : (_try_one_attempt m work).isStop = false) :
    ∃ a, _try_one_attempt m work = .attempted a
      ∧ attemptResult work m = some a
      ∧ a.success = (_try_one_attempt m work).isSuccess := by
  cases ht : _try_one_attempt m work with
  | stopRequested e => rw [ht] at h; simp [TryResult.isStop] at h
  | attempted a =>
      exact ⟨a, rfl, by simp [attemptResult, ht], by simp [TryResult.isSuccess]⟩

/-- `filterMap` over a list on which the function never drops keeps the
length. -/
theorem filterMap_length_of_forall_isSome (f : β → Option γ) :
    ∀ l : List β, (∀ b ∈ l, (f b).isSome) → (l.filterMap f).length = l.length := by
  intro l
  induction l with
  | nil => intro _; rfl
  | cons b rest ih =>
      intro hall
      obtain ⟨c, hc⟩ := Option.isSome_iff_exists.mp (hall b (by simp))
      simp [List.filterMap_cons, hc, ih (fun x hx => hall x (by simp [hx]))]

/-- `filterMap` over a list on which the function never drops acts
index-by-index. -/
theorem filterMap_get_of_forall_isSome (f : β → Option γ) :
    ∀ (l : List β) (i : Nat), (∀ b ∈ l, (f b).isSome) →
      (l.filterMap f)[i]? = (l[i]?).bind f := by
  intro l
  induction l with
  | nil => intro i _; simp
  | cons b rest ih =>
      intro i hall
      obtain ⟨c, hc⟩ := Option.isSome_iff_exists.mp (hall b (by simp))
      cases i with
      | zero => simp [List.filterMap_cons, hc]
      | succ i' =>
          simp only [List.filterMap_cons, hc, List.getElem?_cons_succ]
          exact ih i' (fun x hx => hall x (by simp [hx]))

/-- The fallthrough loop, first-success case: with a callback that always
continues, descriptors before index `k` all failing and descriptor `k`
succeeding with value `v`, the loop returns `v` and appends exactly the
attempts of descriptors `0..k`. -/
theorem runFrom_first_success (work : η → WorkRes α ε)
    (cb : ShouldStopCallbackParameters η α ε → CallbackRes ε)
    (hcb : ∀ p, cb p = CallbackRes.cont) :
    ∀ (models : List (LLMModelSem η ε)) (k : Nat) (mk' : LLMModelSem η ε) (v : α)
      (total idx : Nat) (acc : List (LLMAttempt η α ε)),
      models[k]? = some mk' →
      (∀ (i : Nat) (m : LLMModelSem η ε), i < k → models[i]? = some m →
        (_try_one_attempt m work).isStop = false
          ∧ (_try_one_attempt m work).isSuccess = false) →
      _try_one_attempt mk' work
          = .attempted { stage := .execute, llm_model := mk', success := true,
                         result := some v } →
      runFrom work cb total models idx acc
        = (.ok (some v), acc ++ (models.take (k + 1)).filterMap (attemptResult work)) := by
  intro models
  induction models with
  | nil => intro k mk' v total idx acc hk; simp at hk
  | cons m rest ih =>
      intro k mk' v total idx acc hk hprev hsucc
      cases k with
      | zero =>
          have hm : m = mk' := by simpa using hk
          subst hm
          simp [runFrom, hsucc, hcb, attemptResult, List.filterMap_cons]
      | succ k' =>
          have hk' : rest[k']? = some mk' := by simpa using hk
          have h0 := hprev 0 m (Nat.succ_pos k') (by simp)
          obtain ⟨a, ha, har, hsa⟩ := attempted_of_not_stop m work h0.1
          have hafalse : a.success = false := by rw [hsa, h0.2]
          have hrec := ih k' mk' v total (idx + 1) (acc ++ [a]) hk'
            (fun i m' hi hm' => hprev (i + 1) m' (by omega) (by simpa using hm')) hsucc
          simp only [runFrom, ha, hcb, hafalse, if_false]
          rw [hrec]
          simp [List.take_succ_cons, List.filterMap_cons, har, List.append_assoc]

/-- The fallthrough loop, exhaustion case: with a callback that always
continues and every descriptor failing (none stopping), the loop raises the
aggregate exception carrying one appended attempt per descriptor. -/
theorem runFrom_exhausted (work : η → WorkRes α ε)
    (cb : ShouldStopCallbackParameters η α ε → CallbackRes ε)
    (hcb : ∀ p, cb p = CallbackRes.cont) :
    ∀ (models : List (LLMModelSem η ε)) (total idx : Nat)
      (acc : List (LLMAttempt η α ε)),
      (∀ m ∈ models, (_try_one_attempt m work).isStop = false
        ∧ (_try_one_attempt m work).isSuccess = false) →
      runFrom work cb total models idx acc
        = (.exhaustedAllLLMs (acc ++ models.filterMap (attemptResult work)),
           acc ++ models.filterMap (attemptResult work)) := by
  intro models
  induction models with
  | nil => intro total idx acc _; simp [runFrom]
  | cons m rest ih =>
      intro total idx acc hall
      have h0 := hall m (by simp)
      obtain ⟨a, ha, har, hsa⟩ := attempted_of_not_stop m work h0.1
      have hafalse : a.success = false := by rw [hsa, h0.2]
      simp only [runFrom, ha, hcb, hafalse, if_false]
      rw [ih total (idx + 1) (acc ++ [a]) (fun m' hm' => hall m' (by simp [hm']))]
      simp [List.filterMap_cons, har, List.append_assoc]

/-- The fallthrough loop, cancellation case: with a callback that always
continues, descriptors before index `j` all failing and the work of
descriptor `j` raising the cancellation signal, the loop propagates the
signal and the ledger holds exactly the attempts of descriptors before
`j`. -/
theorem runFrom_stop (work : η → WorkRes α ε)
    (cb : ShouldStopCallbackParameters η α ε → CallbackRes ε)
    (hcb : ∀ p, cb p = CallbackRes.cont) :
    ∀ (models : List (LLMModelSem η ε)) (j : Nat) (mj : LLMModelSem η ε) (e : ε)
      (total idx : Nat) (acc : List (LLMAttempt η α ε)),
      models[j]? = some mj →
      (∀ (i : Nat) (m : LLMModelSem η ε), i < j → models[i]? = some m →
        (_try_one_attempt m work).isStop = false
          ∧ (_try_one_attempt m work).isSuccess = false) →
      _try_one_attempt mj work = .stopRequested e →
      runFrom work cb total models idx acc
        = (.pipelineStopRequested e, acc ++ (models.take j).filterMap (attemptResult work)) := by
  intro models
  induction models with
  | nil => intro j mj e total idx acc hj; simp at hj
  | cons m rest ih =>
      intro j mj e total idx acc hj hprev hstop
      cases j with
      | zero =>
          have hm : m = mj := by simpa using hj
          subst hm
          simp [runFrom, hstop]
      | succ j' =>
          have hj' : rest[j']? = some mj := by simpa using hj
          have h0 := hprev 0 m (Nat.succ_pos j') (by simp)
          obtain ⟨a, ha, har, hsa⟩ := attempted_of_not_stop m work h0.1
          have hafalse : a.success = false := by rw [hsa, h0.2]
          have hrec := ih j' mj e total (idx + 1) (acc ++ [a]) hj'
            (fun i m' hi hm' => hprev (i + 1) m' (by omega) (by simpa using hm')) hstop
          simp only [runFrom, ha, hcb, hafalse, if_false]
          rw [hrec]
          simp [List.take_succ_cons, List.filterMap_cons, har, List.append_assoc]

end LLMExec

namespace LLMExec

/-- An element read by index is a member of the list. -/
theorem mem_of_index_some : ∀ (l : List β) (i : Nat) (b : β), l[i]? = some b → b ∈ l := by
  intro l
  induction l with
  | nil => intro i b h; simp at h
  | cons x rest ih =>
      intro i b h
      cases i with
      | zero =>
          have : x = b := by simpa using h
          simp [this]
      | succ i' =>
          have : rest[i']? = some b := by simpa using h
          simp [ih i' b this]

/-- Prefix indexing: an index below the take bound reads through to the
original list. -/
theorem getElem?_take_of_lt : ∀ (l : List β) (n i : Nat), i < n →
    (l.take n)[i]? = l[i]? := by
  intro l
  induction l with
  | nil => intro n i _; simp
  | cons b rest ih =>
      intro n i hi
      cases n with
      | zero => omega
      | succ n' =>
          cases i with
          | zero => simp
          | succ i' => simpa using ih n' i' (by omega)

/-- C1: with a stop-callback that never raises and work that never raises the
cancellation signal, `run` returns the result of the first descriptor (index
`k`, 0-based) whose construction and work both succeed; the ledger then holds
exactly `k + 1` attempts, the first `k` failed and the last successful with
the returned value; and when no descriptor succeeds, `run` raises the
aggregate exception whose ledger holds exactly one attempt per descriptor, in
descriptor order. -/
theorem run_first_success_and_exhaustion (models : List (LLMModelSem η ε))
    (work : η → WorkRes α ε)
    (cb : ShouldStopCallbackParameters η α ε → CallbackRes ε)
    (hcb : ∀ p, cb p = CallbackRes.cont)
    (hns : ∀ m ∈ models, (_try_one_attempt m work).isStop = false) :
    (∀ (k : Nat) (mk' : LLMModelSem η ε) (v : α),
      models[k]? = some mk' →
      (∀ (i : Nat) (m : LLMModelSem η ε), i < k → models[i]? = some m →
        (_try_one_attempt m work).isSuccess = false) →
      _try_one_attempt mk' work
          = .attempted { stage := .execute, llm_model := mk', success := true,
                         result := some v } →
      (run models work cb
          = (.ok (some v), (models.take (k + 1)).filterMap (attemptResult work))
        ∧ ((models.take (k + 1)).filterMap (attemptResult work)).length = k + 1
        ∧ (∀ (i : Nat) (a : LLMAttempt η α ε), i < k →
            ((models.take (k + 1)).filterMap (attemptResult work))[i]? = some a →
            a.success = false)
        ∧ ((models.take (k + 1)).filterMap (attemptResult work))[k]?
            = some { stage := .execute, llm_model := mk', success := true,
                     result := some v }))
    ∧ ((∀ m ∈ models, (_try_one_attempt m work).isSuccess = false) →
      (run models work cb
          = (.exhaustedAllLLMs (models.filterMap (attemptResult work)),
             models.filterMap (attemptResult work))
        ∧ (models.filterMap (attemptResult work)).length = models.length
        ∧ ∀ (i : Nat), (models.filterMap (attemptResult work))[i]?
            = (models[i]?).bind (attemptResult work))) := by
  have hallsome : ∀ m' ∈ models, (attemptResult work m').isSome := by
    intro m' hm'
    obtain ⟨a, _, har, _⟩ := attempted_of_not_stop m' work (hns m' hm')
    simp [har]
  constructor
  · intro k mk' v hk hfail hsucc
    have hk_lt : k < models.length := by
      rcases Nat.lt_or_ge k models.length with h | h
      · exact h
      · rw [List.getElem?_eq_none h] at hk; cases hk
    have hprev : ∀ (i : Nat) (m : LLMModelSem η ε), i < k → models[i]? = some m →
        (_try_one_attempt m work).isStop = false
          ∧ (_try_one_attempt m work).isSuccess = false := by
      intro i m hi hm
      exact ⟨hns m (mem_of_index_some models i m hm), hfail i m hi hm⟩
    have htsome : ∀ m' ∈ models.take (k + 1), (attemptResult work m').isSome :=
      fun m' hm' => hallsome m' (List.take_subset _ _ hm')
    refine ⟨?_, ?_, ?_, ?_⟩
    · have := runFrom_first_success work cb hcb models k mk' v models.length 0 [] hk
        hprev hsucc
      simpa [run] using this
    · rw [filterMap_length_of_forall_isSome _ _ htsome, List.length_take]
      omega
    · intro i a hi hia
      rw [filterMap_get_of_forall_isSome _ _ i htsome,
        getElem?_take_of_lt _ _ _ (by omega)] at hia
      cases hmi : models[i]? with
      | none => rw [hmi] at hia; simp at hia
      | some m =>
          rw [hmi] at hia
          simp only [Option.some_bind] at hia
          obtain ⟨a', ha', har', hsa'⟩ :=
            attempted_of_not_stop m work (hprev i m hi hmi).1
          rw [har'] at hia
          have haa : a = a' := by injection hia with h; exact h.symm
          rw [haa, hsa', (hprev i m hi hmi).2]
    · rw [filterMap_get_of_forall_isSome _ _ k htsome,
        getElem?_take_of_lt _ _ _ (by omega), hk]
      simp [attemptResult, hsucc]
  · intro hallfail
    have hall : ∀ m ∈ models, (_try_one_attempt m work).isStop = false
        ∧ (_try_one_attempt m work).isSuccess = false :=
      fun m hm => ⟨hns m hm, hallfail m hm⟩
    have := runFrom_exhausted work cb hcb models models.length 0 [] hall
    refine ⟨by simpa [run] using this, ?_, ?_⟩
    · exact filterMap_length_of_forall_isSome _ _ hallsome
    · intro i
      exact filterMap_get_of_forall_isSome _ _ i hallsome

/-- Witness for C1 on the end-to-end scenario of the spec: descriptor X fails
construction, Y constructs but its work raises, Z succeeds; `run` returns Z's
result and the ledger holds three attempts. -/
theorem run_first_success_and_exhaustion_witness :
    (run [({ createRes := Except.error "nocreate" } : LLMModelSem Nat String),
          { createRes := Except.ok 2 }, { createRes := Except.ok 3 }]
        (fun h => if h = 3 then WorkRes.ok 42 else WorkRes.fail "boom")
        (fun _ => CallbackRes.cont)).1 = RunOutcome.ok (some 42)
    ∧ (run [({ createRes := Except.error "nocreate" } : LLMModelSem Nat String),
          { createRes := Except.ok 2 }, { createRes := Except.ok 3 }]
        (fun h => if h = 3 then WorkRes.ok 42 else WorkRes.fail "boom")
        (fun _ => CallbackRes.cont)).2.length = 3 := by
  have h := (run_first_success_and_exhaustion
      [({ createRes := Except.error "nocreate" } : LLMModelSem Nat String),
       { createRes := Except.ok 2 }, { createRes := Except.ok 3 }]
      (fun h => if h = 3 then WorkRes.ok 42 else WorkRes.fail "boom")
      (fun _ => CallbackRes.cont)
      (fun _ => rfl)
      (by intro m hm; fin_cases hm <;> decide)).1
    2 { createRes := Except.ok 3 } 42 (by rfl)
    (by
      intro i m hi hm
      cases i with
      | zero =>
          have hm' : m = { createRes := Except.error "nocreate" } := by
            simpa using hm.symm
          rw [hm']; decide
      | succ i' =>
          cases i' with
          | zero =>
              have hm' : m = { createRes := Except.ok 2 } := by
                simpa using hm.symm
              rw [hm']; decide
          | succ i'' => omega)
    (by rfl)
  refine ⟨?_, ?_⟩
  · rw [h.1]
  · rw [h.1]
    exact h.2.1

/-- C10: with a stop-callback that never raises, when the descriptors before
index `j` all fail and the work of descriptor `j` raises the cancellation
signal, `run` propagates `PipelineStopRequested` immediately and the ledger
holds exactly the attempts of the descriptors tried before `j` - none is
appended for descriptor `j` itself. -/
theorem run_propagates_stop_without_attempt (models : List (LLMModelSem η ε))
    (work : η → WorkRes α ε)
    (cb : ShouldStopCallbackParameters η α ε → CallbackRes ε)
    (hcb : ∀ p, cb p = CallbackRes.cont)
    (j : Nat) (mj : LLMModelSem η ε) (e : ε)
    (hj : models[j]? = some mj)
    (hprev : ∀ (i : Nat) (m : LLMModelSem η ε), i < j → models[i]? = some m →
      (_try_one_attempt m work).isStop = false
        ∧ (_try_one_attempt m work).isSuccess = false)
    (hstop : _try_one_attempt mj work = .stopRequested e) :
    run models work cb
        = (.pipelineStopRequested e, (models.take j).filterMap (attemptResult work))
    ∧ ((models.take j).filterMap (attemptResult work)).length = j
    ∧ ∀ (i : Nat), i < j →
        ((models.take j).filterMap (attemptResult work))[i]?
          = (models[i]?).bind (attemptResult work) := by
  have hj_lt : j < models.length := by
    rcases Nat.lt_or_ge j models.length with h | h
    · exact h
    · rw [List.getElem?_eq_none h] at hj; cases hj
  have htsome : ∀ m' ∈ models.take j, (attemptResult work m').isSome := by
    intro m' hm'
    obtain ⟨i, hi, hgi⟩ := List.getElem_of_mem hm'
    have hi_j : i < j := lt_of_lt_of_le hi (by rw [List.length_take]; exact min_le_left _ _)
    have hq : models[i]? = some m' := by
      rw [← getElem?_take_of_lt models j i hi_j]
      rw [List.getElem?_eq_getElem hi, hgi]
    obtain ⟨a, _, har, _⟩ := attempted_of_not_stop m' work (hprev i m' hi_j hq).1
    simp [har]
  refine ⟨?_, ?_, ?_⟩
  · have := runFrom_stop work cb hcb models j mj e models.length 0 [] hj hprev hstop
    simpa [run] using this
  · rw [filterMap_length_of_forall_isSome _ _ htsome, List.length_take]
    omega
  · intro i hi
    rw [filterMap_get_of_forall_isSome _ _ i htsome, getElem?_take_of_lt _ _ _ hi]

/-- Witness for C10: the first descriptor fails construction, the second's
work raises the cancellation signal; `run` propagates the stop and the ledger
holds exactly one attempt (for the first descriptor only). -/
theorem run_propagates_stop_without_attempt_witness :
    (run [({ createRes := Except.error "no" } : LLMModelSem Nat String),
          { createRes := Except.ok 2 }]
        ((fun h => if h = 2 then WorkRes.stopRequested "stop" else WorkRes.fail "x") : Nat → WorkRes Nat String)
        (fun _ => CallbackRes.cont)).1 = RunOutcome.pipelineStopRequested "stop"
    ∧ (run [({ createRes := Except.error "no" } : LLMModelSem Nat String),
          { createRes := Except.ok 2 }]
        ((fun h => if h = 2 then WorkRes.stopRequested "stop" else WorkRes.fail "x") : Nat → WorkRes Nat String)
        (fun _ => CallbackRes.cont)).2.length = 1 := by
  have h := run_propagates_stop_without_attempt
      [({ createRes := Except.error "no" } : LLMModelSem Nat String),
       { createRes := Except.ok 2 }]
      ((fun h => if h = 2 then WorkRes.stopRequested "stop" else WorkRes.fail "x") : Nat → WorkRes Nat String)
      (fun _ => CallbackRes.cont)
      (fun _ => rfl)
      1 { createRes := Except.ok 2 } "stop" (by rfl)
      (by
        intro i m hi hm
        cases i with
        | zero =>
            have hm' : m = { createRes := Except.error "no" } := by
              simpa using hm.symm
            rw [hm']; exact ⟨rfl, rfl⟩
        | succ i' => omega)
      (by rfl)
  refine ⟨by rw [h.1], ?_⟩
  rw [h.1]
  exact h.2.1

end LLMExec

namespace StrictModel

/-- A key found in the left part of an appended assoc list keeps its value. -/
theorem lookup_append_of_some : ∀ (l l2 : List (String × β)) (k : String) (v : β),
    lookupStr l k = some v → lookupStr (l ++ l2) k = some v := by
  intro l l2 k v h
  induction l with
  | nil => simp [lookupStr] at h
  | cons p rest ih =>
      by_cases hp : p.1 = k
      · simp only [lookupStr, hp, if_pos] at h ⊢
        · exact h
      · simp only [List.cons_append, lookupStr, hp, if_neg, if_false] at h ⊢
        exact ih h

/-- A key absent from the left part of an appended assoc list is looked up in
the right part. -/
theorem lookup_append_of_none : ∀ (l l2 : List (String × β)) (k : String),
    lookupStr l k = none → lookupStr (l ++ l2) k = lookupStr l2 k := by
  intro l l2 k h
  induction l with
  | nil => simp
  | cons p rest ih =>
      by_cases hp : p.1 = k
      · simp only [lookupStr, hp, if_pos] at h
        cases h
      · simp only [List.cons_append, lookupStr, hp, if_neg, if_false] at h ⊢
        exact ih h

/-- A key with a value is among the keys. -/
theorem mem_keys_of_lookup_some : ∀ (l : List (String × β)) (k : String) (v : β),
    lookupStr l k = some v → k ∈ l.map Prod.fst := by
  intro l k v h
  induction l with
  | nil => simp [lookupStr] at h
  | cons p rest ih =>
      by_cases hp : p.1 = k
      · simp [hp]
      · simp only [lookupStr, hp, if_neg, if_false] at h
        simp [ih h]

/-- A key without a value is not among the keys. -/
theorem not_mem_keys_of_lookup_none : ∀ (l : List (String × β)) (k : String),
    lookupStr l k = none → k ∉ l.map Prod.fst := by
  intro l k h
  induction l with
  | nil => simp
  | cons p rest ih =>
      by_cases hp : p.1 = k
      · simp only [lookupStr, hp, if_pos] at h
        cases h
      · simp only [lookupStr, hp, if_neg, if_false] at h
        simp only [List.map_cons, List.mem_cons]
        rintro (hh | hh)
        · exact hp hh.symm
        · exact ih h hh

/-- `hasKey` false is exactly a `none` lookup. -/
theorem lookup_none_of_hasKey_false (l : List (String × β)) (k : String)
    (h : hasKey l k = false) : lookupStr l k = none := by
  unfold hasKey at h
  cases hl : lookupStr l k with
  | none => rfl
  | some v => rw [hl] at h; simp at h

/-- A successful lookup makes `hasKey` true. -/
theorem hasKey_true_of_lookup_some (l : List (String × β)) (k : String) (v : β)
    (h : lookupStr l k = some v) : hasKey l k = true := by
  unfold hasKey
  rw [h]
  rfl

/-- One injection step never disturbs a key that already has a value. -/
theorem injectStep_preserve (ms : ModelSpec) (policy : Policy) (data : Payload)
    (t k : String) (w : PValue) (h : lookupStr data k = some w) :
    lookupStr (injectStep ms policy data t) k = some w := by
  unfold injectStep
  cases ht : hasKey data t
  · simp only [Bool.false_eq_true, if_false]
    cases ho : lookupStr policy.default_overrides t with
    | some v => exact lookup_append_of_some _ _ _ _ h
    | none =>
        cases hd : _derive_default ms t with
        | some d => exact lookup_append_of_some _ _ _ _ h
        | none => exact h
  · simp only [if_pos]
    exact h

/-- The whole injection fold never disturbs a key that already has a value. -/
theorem foldl_injectStep_preserve (ms : ModelSpec) (policy : Policy)
    (k : String) (w : PValue) :
    ∀ (ts : List String) (data : Payload), lookupStr data k = some w →
      lookupStr (ts.foldl (injectStep ms policy) data) k = some w := by
  intro ts
  induction ts with
  | nil => intro data h; exact h
  | cons t rest ih =>
      intro data h
      exact ih _ (injectStep_preserve ms policy data t k w h)

/-- One injection step for a different target leaves an absent key absent. -/
theorem injectStep_absent (ms : ModelSpec) (policy : Policy) (data : Payload)
    (t k : String) (hk : k ≠ t) (h : lookupStr data k = none) :
    lookupStr (injectStep ms policy data t) k = none := by
  unfold injectStep
  cases ht : hasKey data t
  · simp only [Bool.false_eq_true, if_false]
    have hne : ¬t = k := fun hh => hk hh.symm
    cases ho : lookupStr policy.default_overrides t with
    | some v =>
        rw [lookup_append_of_none _ _ _ h]
        simp [lookupStr, hne]
    | none =>
        cases hd : _derive_default ms t with
        | some d =>
            rw [lookup_append_of_none _ _ _ h]
            simp [lookupStr, hne]
        | none => exact h
  · simp only [if_pos]
    exact h

/-- The injection fold leaves a key absent when it is absent initially and not
among the targets. -/
theorem foldl_injectStep_not_target (ms : ModelSpec) (policy : Policy) (k : String) :
    ∀ (ts : List String) (data : Payload), k ∉ ts → lookupStr data k = none →
      lookupStr (ts.foldl (injectStep ms policy) data) k = none := by
  intro ts
  induction ts with
  | nil => intro data _ h; exact h
  | cons t rest ih =>
      intro data hnot h
      have hkt : k ≠ t := fun hh => hnot (by simp [hh])
      exact ih _ (fun hh => hnot (by simp [hh]))
        (injectStep_absent ms policy data t k hkt h)

/-- A targeted absent key with a policy override ends up bound to the
override. -/
theorem foldl_injectStep_override (ms : ModelSpec) (policy : Policy)
    (f : String) (v : PValue) (hov : lookupStr policy.default_overrides f = some v) :
    ∀ (ts : List String) (data : Payload), f ∈ ts → lookupStr data f = none →
      lookupStr (ts.foldl (injectStep ms policy) data) f = some v := by
  intro ts
  induction ts with
  | nil => intro data hmem; simp at hmem
  | cons t rest ih =>
      intro data hmem hnone
      by_cases htf : t = f
      · subst htf
        have hstep : injectStep ms policy data t = data ++ [(t, v)] := by
          unfold injectStep
          rw [show hasKey data t = false from by unfold hasKey; rw [hnone]; rfl]
          simp only [Bool.false_eq_true, if_false, hov]
        rw [List.foldl_cons, hstep]
        apply foldl_injectStep_preserve
        rw [lookup_append_of_none _ _ _ hnone]
        simp [lookupStr]
      · have hmem' : f ∈ rest := by
          rcases List.mem_cons.mp hmem with hh | hh
          · exact absurd hh.symm htf
          · exact hh
        rw [List.foldl_cons]
        exact ih _ hmem'
          (injectStep_absent ms policy data t f (fun hh => htf hh.symm) hnone)

/-- A targeted absent key with no override but a derivable default ends up
bound to the derived default. -/
theorem foldl_injectStep_derived (ms : ModelSpec) (policy : Policy)
    (f : String) (d : PValue) (hov : lookupStr policy.default_overrides f = none)
    (hd : _derive_default ms f = some d) :
    ∀ (ts : List String) (data : Payload), f ∈ ts → lookupStr data f = none →
      lookupStr (ts.foldl (injectStep ms policy) data) f = some d := by
  intro ts
  induction ts with
  | nil => intro data hmem; simp at hmem
  | cons t rest ih =>
      intro data hmem hnone
      by_cases htf : t = f
      · subst htf
        have hstep : injectStep ms policy data t = data ++ [(t, d)] := by
          unfold injectStep
          rw [show hasKey data t = false from by unfold hasKey; rw [hnone]; rfl]
          simp only [Bool.false_eq_true, if_false, hov, hd]
        rw [List.foldl_cons, hstep]
        apply foldl_injectStep_preserve
        rw [lookup_append_of_none _ _ _ hnone]
        simp [lookupStr]
      · have hmem' : f ∈ rest := by
          rcases List.mem_cons.mp hmem with hh | hh
          · exact absurd hh.symm htf
          · exact hh
        rw [List.foldl_cons]
        exact ih _ hmem'
          (injectStep_absent ms policy data t f (fun hh => htf hh.symm) hnone)

end StrictModel

namespace StrictModel

/-- Looking a field up in a materialised instance finds the first declared
field of that name and its materialised value. -/
theorem lookup_mkInstance (data : Payload) (k : String) :
    ∀ fields : List FieldSpec,
      lookupStr (fields.map (fun f => (f.name, fieldValue f data))) k
        = (fields.find? (fun f => f.name = k)).map (fun fld => fieldValue fld data) := by
  intro fields
  induction fields with
  | nil => simp [lookupStr]
  | cons f0 rest ih =>
      by_cases h0 : f0.name = k
      · simp [lookupStr, List.find?_cons, h0]
      · simp only [List.map_cons, lookupStr, h0, if_false, List.find?_cons]
        rw [ih]
        simp [h0]

/-- A name among the declared field names is found by `find?`. -/
theorem find?_name_isSome_of_mem (k : String) :
    ∀ fields : List FieldSpec, k ∈ fields.map (fun f => f.name) →
      (fields.find? (fun f => f.name = k)).isSome = true := by
  intro fields
  induction fields with
  | nil => intro h; simp at h
  | cons f0 rest ih =>
      intro h
      by_cases h0 : f0.name = k
      · simp [List.find?_cons, h0]
      · simp only [List.map_cons, List.mem_cons] at h
        rcases h with hh | hh
        · exact absurd hh.symm h0
        · simp only [List.find?_cons, h0]
          simpa [h0] using ih hh

/-- A required field name is a declared field name. -/
theorem mem_names_of_mem_required (ms : ModelSpec) (f : String)
    (h : f ∈ requiredFields ms) : f ∈ ms.fields.map (fun fl => fl.name) := by
  unfold requiredFields at h
  obtain ⟨fld, hfl, hname⟩ := List.mem_map.mp h
  exact List.mem_map.mpr ⟨fld, List.mem_of_mem_filter hfl, hname⟩

/-- When every required field has a value, the base validator succeeds and
materialises the instance. -/
theorem baseValidate_ok_of_covered (ms : ModelSpec) (data : Payload)
    (h : ∀ n ∈ requiredFields ms, hasKey data n = true) :
    baseValidate ms data = .ok (mkInstance ms data) := by
  have hfil : (requiredFields ms).filter (fun n => !(hasKey data n)) = [] := by
    rw [List.filter_eq_nil_iff]
    intro n hn
    simp [h n hn]
  simp only [baseValidate, hfil]
  rfl

/-- When some required field has no value, the base validator fails with the
`missing` errors for the uncovered required fields, in order. -/
theorem baseValidate_error_of_uncovered (ms : ModelSpec) (data : Payload)
    (f : String) (hf : f ∈ requiredFields ms) (hk : hasKey data f = false) :
    baseValidate ms data
      = .error (((requiredFields ms).filter (fun n => !(hasKey data n))).map
          (fun n => { errType := "missing", loc := [n] })) := by
  have hmem : f ∈ (requiredFields ms).filter (fun n => !(hasKey data n)) :=
    List.mem_filter.mpr ⟨hf, by simp [hk]⟩
  have hne : (requiredFields ms).filter (fun n => !(hasKey data n)) ≠ [] :=
    List.ne_nil_of_mem hmem
  simp only [baseValidate]
  rw [if_neg (by simpa [List.isEmpty_iff] using hne)]

/-- Folding the collector over constant `missing`-errors for `f` when `f` is
already collected changes nothing. -/
theorem collect_const_already (f : String) :
    ∀ (l : List String) (acc : List String), (∀ x ∈ l, x = f) →
      acc.contains f = true →
      (l.map (fun n => ({ errType := "missing", loc := [n] } : ValErrorEntry))).foldl
          collectStep acc = acc := by
  intro l
  induction l with
  | nil => intro acc _ _; rfl
  | cons x rest ih =>
      intro acc hall hacc
      have hx : x = f := hall x (by simp)
      subst hx
      have hmem : x ∈ acc := by simpa using hacc
      simp only [List.map_cons, List.foldl_cons]
      rw [show collectStep acc { errType := "missing", loc := [x] } = acc from by
        simp [collectStep, hmem]]
      exact ih acc (fun y hy => hall y (by simp [hy])) hacc

/-- Folding the collector over nonempty constant `missing`-errors for `f` when
`f` is not yet collected appends `f` exactly once. -/
theorem collect_const_fresh (f : String) :
    ∀ (l : List String) (acc : List String), (∀ x ∈ l, x = f) →
      acc.contains f = false → l ≠ [] →
      (l.map (fun n => ({ errType := "missing", loc := [n] } : ValErrorEntry))).foldl
          collectStep acc = acc ++ [f] := by
  intro l
  cases l with
  | nil => intro acc _ _ hne; exact absurd rfl hne
  | cons x rest =>
      intro acc hall hacc _
      have hx : x = f := hall x (by simp)
      subst hx
      have hmem : x ∉ acc := by simpa using hacc
      simp only [List.map_cons, List.foldl_cons]
      rw [show collectStep acc { errType := "missing", loc := [x] } = acc ++ [x] from by
        simp [collectStep, hmem]]
      apply collect_const_already x rest _ (fun y hy => hall y (by simp [hy]))
      simp

/-- `_collect_missing` over constant `missing`-errors for `f` yields `[f]`. -/
theorem collect_missing_const (f : String) (l : List String)
    (hall : ∀ x ∈ l, x = f) (hne : l ≠ []) :
    _collect_missing
        (l.map (fun n => ({ errType := "missing", loc := [n] } : ValErrorEntry)))
      = [f] := by
  unfold _collect_missing
  rw [collect_const_fresh f l [] hall (by simp) hne]
  rfl

/-- Membership in the collector fold over `missing`-errors built from a name
list: exactly the starting accumulator plus the names of the list. -/
theorem mem_collect_map (x : String) :
    ∀ (l : List String) (acc : List String),
      (x ∈ (l.map (fun n => ({ errType := "missing", loc := [n] } : ValErrorEntry))).foldl
          collectStep acc) ↔ (x ∈ acc ∨ x ∈ l) := by
  intro l
  induction l with
  | nil => intro acc; simp
  | cons n rest ih =>
      intro acc
      simp only [List.map_cons, List.foldl_cons]
      rw [ih]
      by_cases hc : n ∈ acc
      · have hstep : collectStep acc { errType := "missing", loc := [n] } = acc := by
          simp [collectStep, hc]
        rw [hstep]
        constructor
        · rintro (h | h)
          · exact Or.inl h
          · exact Or.inr (List.mem_cons.mpr (Or.inr h))
        · rintro (h | h)
          · exact Or.inl h
          · rcases List.mem_cons.mp h with rfl | hh
            · exact Or.inl hc
            · exact Or.inr hh
      · have hstep : collectStep acc { errType := "missing", loc := [n] } = acc ++ [n] := by
          simp [collectStep, hc]
        rw [hstep]
        constructor
        · rintro (h | h)
          · rcases List.mem_append.mp h with hh | hh
            · exact Or.inl hh
            · simp only [List.mem_singleton] at hh
              exact Or.inr (by simp [hh])
          · exact Or.inr (by simp [h])
        · rintro (h | h)
          · exact Or.inl (List.mem_append.mpr (Or.inl h))
          · rcases List.mem_cons.mp h with rfl | hh
            · exact Or.inl (List.mem_append.mpr (Or.inr (by simp)))
            · exact Or.inr hh

/-- Unfolding `_inject_defaults` with explicit targets into its fold. -/
theorem inject_defaults_some (ms : ModelSpec) (policy : Policy) (data : Payload)
    (ts : List String) :
    _inject_defaults ms policy data (some ts) = ts.foldl (injectStep ms policy) data := rfl

/-- The prepared payload is the injection of the override keys. -/
theorem preparedPayload_eq (ms : ModelSpec) (policy : Policy) (data : Payload) :
    preparedPayload ms policy data
      = _inject_defaults ms policy data
          (some (policy.default_overrides.map (fun p => p.1))) := by
  unfold preparedPayload
  cases policy.default_overrides with
  | nil => rfl
  | cons p rest => rfl

end StrictModel

namespace StrictModel

/-- With allow_missing, when every required field absent from the payload has
no policy override and a derivable type-driven default, validation succeeds
and each such field carries its derived default (stated for one such field
`f`; the hypothesis covers all of them, so several fields may be missing at
once). -/
theorem model_validate_derived_defaults_aux (ms : ModelSpec) (policy : Policy)
    (payload : Payload) (f : String) (d : PValue)
    (hallow : policy.allow_missing = true)
    (hrep : ∀ g ∈ requiredFields ms, hasKey payload g = false →
      lookupStr policy.default_overrides g = none
        ∧ (_derive_default ms g).isSome = true)
    (hreq : f ∈ requiredFields ms)
    (hkf : hasKey payload f = false)
    (hd : _derive_default ms f = some d) :
    validationOk (model_validate ms policy payload) = true
    ∧ validatedField (model_validate ms policy payload) f = some d := by
  have hov : lookupStr policy.default_overrides f = none := (hrep f hreq hkf).1
  have hnone := lookup_none_of_hasKey_false payload f hkf
  have hnotkeys := not_mem_keys_of_lookup_none policy.default_overrides f hov
  have hprepnone : lookupStr (preparedPayload ms policy payload) f = none := by
    rw [preparedPayload_eq, inject_defaults_some]
    exact foldl_injectStep_not_target ms policy f _ payload hnotkeys hnone
  have hprepkf : hasKey (preparedPayload ms policy payload) f = false := by
    unfold hasKey
    rw [hprepnone]
    rfl
  have herr := baseValidate_error_of_uncovered ms (preparedPayload ms policy payload)
    f hreq hprepkf
  have hMmem : ∀ x, x ∈ (requiredFields ms).filter
      (fun n => !(hasKey (preparedPayload ms policy payload) n))
      ↔ (x ∈ requiredFields ms ∧ hasKey payload x = false) := by
    intro x
    constructor
    · intro hx
      obtain ⟨hxr, hxk⟩ := List.mem_filter.mp hx
      refine ⟨hxr, ?_⟩
      cases hh : hasKey payload x
      · rfl
      · obtain ⟨w, hw⟩ := Option.isSome_iff_exists.mp (by unfold hasKey at hh; exact hh)
        have hpx : lookupStr (preparedPayload ms policy payload) x = some w := by
          rw [preparedPayload_eq, inject_defaults_some]
          exact foldl_injectStep_preserve ms policy x w _ payload hw
        unfold hasKey at hxk
        rw [hpx] at hxk
        simp at hxk
    · rintro ⟨hxr, hxk⟩
      refine List.mem_filter.mpr ⟨hxr, ?_⟩
      have hovx := (hrep x hxr hxk).1
      have hxnone := lookup_none_of_hasKey_false payload x hxk
      have hxnk := not_mem_keys_of_lookup_none policy.default_overrides x hovx
      have hpx : lookupStr (preparedPayload ms policy payload) x = none := by
        rw [preparedPayload_eq, inject_defaults_some]
        exact foldl_injectStep_not_target ms policy x _ payload hxnk hxnone
      simp [hasKey, hpx]
  have hcollmem : ∀ x, x ∈ _collect_missing
      (((requiredFields ms).filter
          (fun n => !(hasKey (preparedPayload ms policy payload) n))).map
        (fun n => ({ errType := "missing", loc := [n] } : ValErrorEntry)))
      ↔ (x ∈ requiredFields ms ∧ hasKey payload x = false) := by
    intro x
    unfold _collect_missing
    rw [mem_collect_map]
    simp [hMmem]
  have hfc : f ∈ _collect_missing
      (((requiredFields ms).filter
          (fun n => !(hasKey (preparedPayload ms policy payload) n))).map
        (fun n => ({ errType := "missing", loc := [n] } : ValErrorEntry))) :=
    (hcollmem f).mpr ⟨hreq, hkf⟩
  have hcne := List.ne_nil_of_mem hfc
  have hcov2 : ∀ g ∈ requiredFields ms,
      hasKey ((_collect_missing
        (((requiredFields ms).filter
            (fun n => !(hasKey (preparedPayload ms policy payload) n))).map
          (fun n => ({ errType := "missing", loc := [n] } : ValErrorEntry)))).foldl
        (injectStep ms policy) payload) g = true := by
    intro g hg
    cases hgp : hasKey payload g
    · have hgc := (hcollmem g).mpr ⟨hg, hgp⟩
      have hovg := (hrep g hg hgp).1
      obtain ⟨dg, hdg⟩ := Option.isSome_iff_exists.mp (hrep g hg hgp).2
      have hgnone := lookup_none_of_hasKey_false payload g hgp
      exact hasKey_true_of_lookup_some _ _ dg
        (foldl_injectStep_derived ms policy g dg hovg hdg _ payload hgc hgnone)
    · obtain ⟨w, hw⟩ := Option.isSome_iff_exists.mp (by unfold hasKey at hgp; exact hgp)
      exact hasKey_true_of_lookup_some _ _ w
        (foldl_injectStep_preserve ms policy g w _ payload hw)
  have hbase2 := baseValidate_ok_of_covered ms _ hcov2
  have hie : (_collect_missing
      (((requiredFields ms).filter
          (fun n => !(hasKey (preparedPayload ms policy payload) n))).map
        (fun n => ({ errType := "missing", loc := [n] } : ValErrorEntry)))).isEmpty
      = false := by
    cases hcl : _collect_missing
        (((requiredFields ms).filter
            (fun n => !(hasKey (preparedPayload ms policy payload) n))).map
          (fun n => ({ errType := "missing", loc := [n] } : ValErrorEntry)))
    · exact absurd hcl hcne
    · rfl
  have hmv : model_validate ms policy payload
      = .ok (mkInstance ms ((_collect_missing
          (((requiredFields ms).filter
              (fun n => !(hasKey (preparedPayload ms policy payload) n))).map
            (fun n => ({ errType := "missing", loc := [n] } : ValErrorEntry)))).foldl
          (injectStep ms policy) payload)) := by
    simp only [model_validate]
    rw [herr]
    dsimp only
    rw [hallow]
    simp only [Bool.not_true, Bool.false_eq_true, if_false]
    rw [hie]
    simp only [Bool.false_eq_true, if_false]
    rw [inject_defaults_some, hbase2]
  refine ⟨by rw [hmv]; rfl, ?_⟩
  unfold validatedField
  rw [hmv]
  show lookupStr (mkInstance ms _) f = some d
  unfold mkInstance
  rw [lookup_mkInstance]
  have hfind := find?_name_isSome_of_mem f ms.fields (mem_names_of_mem_required ms f hreq)
  obtain ⟨fld, hfld⟩ := Option.isSome_iff_exists.mp hfind
  rw [hfld]
  have hp := @List.find?_some FieldSpec (fun fl => decide (fl.name = f)) fld ms.fields hfld
  have hname : fld.name = f := of_decide_eq_true hp
  simp only [Option.map_some']
  unfold fieldValue
  rw [hname, foldl_injectStep_derived ms policy f d hov hd _ payload hfc hnone]

/-- C3 amended: (a) a payload missing a field with a policy override
validates to an instance carrying the override, provided every required field
is present in the payload or covered by an override (the repair pass rebuilds
from the original payload, so overrides do not survive into it); (b) with
allow_missing, a payload whose missing required fields all lack overrides and
have derivable type-driven defaults validates to an instance carrying those
defaults; (c) the type-driven defaults are: first enumeration member, empty
container for list/set/tuple/dict origins, the "TBD" placeholder for str,
zero for int and float, false for bool; (d) with allow_missing=false, a
payload missing a required field that has no override fails validation. -/
theorem model_validate_lenient_defaults :
    (∀ (ms : ModelSpec) (policy : Policy) (payload : Payload) (f : String) (v : PValue),
      lookupStr policy.default_overrides f = some v →
      hasKey payload f = false →
      (ms.fields.find? (fun fl => fl.name = f)).isSome = true →
      (∀ g ∈ requiredFields ms, hasKey payload g = true
          ∨ (lookupStr policy.default_overrides g).isSome = true) →
      (model_validate ms policy payload
          = .ok (mkInstance ms (preparedPayload ms policy payload))
        ∧ validatedField (model_validate ms policy payload) f = some v))
    ∧ (∀ (ms : ModelSpec) (policy : Policy) (payload : Payload) (f : String) (d : PValue),
      policy.allow_missing = true →
      (∀ g ∈ requiredFields ms, hasKey payload g = false →
        lookupStr policy.default_overrides g = none
          ∧ (_derive_default ms g).isSome = true) →
      f ∈ requiredFields ms →
      hasKey payload f = false →
      _derive_default ms f = some d →
      (validationOk (model_validate ms policy payload) = true
        ∧ validatedField (model_validate ms policy payload) f = some d))
    ∧ (∀ (ms : ModelSpec) (f : String) (fld : FieldSpec),
      ms.fields.find? (fun fl => fl.name = f) = some fld →
      fld.default = none → fld.defaultFactory = none →
      ((∀ (m : String) (rest : List String),
          _unwrap_optional fld.annotation = .enumT (m :: rest) →
          _derive_default ms f = some (.vEnum m))
        ∧ (_unwrap_optional fld.annotation = .listT →
            _derive_default ms f = some (.vList []))
        ∧ (_unwrap_optional fld.annotation = .setT →
            _derive_default ms f = some (.vList []))
        ∧ (_unwrap_optional fld.annotation = .tupleT →
            _derive_default ms f = some (.vList []))
        ∧ (_unwrap_optional fld.annotation = .dictT →
            _derive_default ms f = some (.vDict []))
        ∧ (_unwrap_optional fld.annotation = .strT →
            _derive_default ms f = some (.vStr "TBD"))
        ∧ (_unwrap_optional fld.annotation = .intT →
            _derive_default ms f = some (.vInt 0))
        ∧ (_unwrap_optional fld.annotation = .floatT →
            _derive_default ms f = some (.vFloat 0))
        ∧ (_unwrap_optional fld.annotation = .boolT →
            _derive_default ms f = some (.vBool false))))
    ∧ (∀ (ms : ModelSpec) (policy : Policy) (payload : Payload) (f : String),
      policy.allow_missing = false →
      f ∈ requiredFields ms →
      hasKey payload f = false →
      lookupStr policy.default_overrides f = none →
      validationOk (model_validate ms policy payload) = false) := by
  refine ⟨?_, ?_, ?_, ?_⟩
  · -- (a) override survives when no repair pass is needed
    intro ms policy payload f v hov hkf hfind hcov
    have hcovp : ∀ g ∈ requiredFields ms,
        hasKey (preparedPayload ms policy payload) g = true := by
      intro g hg
      by_cases hpg : hasKey payload g = true
      · obtain ⟨w, hw⟩ := Option.isSome_iff_exists.mp (by unfold hasKey at hpg; exact hpg)
        unfold hasKey
        rw [preparedPayload_eq, inject_defaults_some,
          foldl_injectStep_preserve ms policy g w _ payload hw]
        rfl
      · rcases hcov g hg with hp | hp
        · exact absurd hp hpg
        · obtain ⟨w, hw⟩ := Option.isSome_iff_exists.mp hp
          have hgnone : lookupStr payload g = none :=
            lookup_none_of_hasKey_false payload g (by
              cases hh : hasKey payload g
              · rfl
              · exact absurd hh hpg)
          have hmem : g ∈ policy.default_overrides.map (fun p => p.1) :=
            mem_keys_of_lookup_some policy.default_overrides g w hw
          unfold hasKey
          rw [preparedPayload_eq, inject_defaults_some,
            foldl_injectStep_override ms policy g w hw _ payload hmem hgnone]
          rfl
    have hbase := baseValidate_ok_of_covered ms (preparedPayload ms policy payload) hcovp
    have hmv : model_validate ms policy payload
        = .ok (mkInstance ms (preparedPayload ms policy payload)) := by
      simp only [model_validate]
      rw [hbase]
    refine ⟨hmv, ?_⟩
    unfold validatedField
    rw [hmv]
    show lookupStr (mkInstance ms (preparedPayload ms policy payload)) f = some v
    unfold mkInstance
    rw [lookup_mkInstance]
    obtain ⟨fld, hfld⟩ := Option.isSome_iff_exists.mp hfind
    rw [hfld]
    have hp := @List.find?_some FieldSpec (fun fl => decide (fl.name = f)) fld ms.fields hfld
    have hname : fld.name = f := of_decide_eq_true hp
    have hfnone : lookupStr payload f = none := lookup_none_of_hasKey_false payload f hkf
    have hmem : f ∈ policy.default_overrides.map (fun p => p.1) :=
      mem_keys_of_lookup_some policy.default_overrides f v hov
    have hprepf : lookupStr (preparedPayload ms policy payload) f = some v := by
      rw [preparedPayload_eq, inject_defaults_some]
      exact foldl_injectStep_override ms policy f v hov _ payload hmem hfnone
    simp only [Option.map_some']
    unfold fieldValue
    rw [hname, hprepf]
  · -- (b) type-driven defaults for the missing required fields
    intro ms policy payload f d hallow hrep hreq hkf hd
    exact model_validate_derived_defaults_aux ms policy payload f d hallow hrep hreq hkf hd
  · -- (c) the type-driven defaults themselves
    intro ms f fld hfind hdef hfac
    refine ⟨?_, ?_, ?_, ?_, ?_, ?_, ?_, ?_, ?_⟩
    · intro m rest h; simp [_derive_default, hfind, hdef, hfac, h]
    · intro h; simp [_derive_default, hfind, hdef, hfac, h]
    · intro h; simp [_derive_default, hfind, hdef, hfac, h]
    · intro h; simp [_derive_default, hfind, hdef, hfac, h]
    · intro h; simp [_derive_default, hfind, hdef, hfac, h]
    · intro h; simp [_derive_default, hfind, hdef, hfac, h]
    · intro h; simp [_derive_default, hfind, hdef, hfac, h]
    · intro h; simp [_derive_default, hfind, hdef, hfac, h]
    · intro h; simp [_derive_default, hfind, hdef, hfac, h]
  · -- (d) allow_missing=false rejects a missing required field with no override
    intro ms policy payload f hallow hreq hkf hov
    have hnone := lookup_none_of_hasKey_false payload f hkf
    have hnotkeys := not_mem_keys_of_lookup_none policy.default_overrides f hov
    have hprepnone : lookupStr (preparedPayload ms policy payload) f = none := by
      rw [preparedPayload_eq, inject_defaults_some]
      exact foldl_injectStep_not_target ms policy f _ payload hnotkeys hnone
    have hprepkf : hasKey (preparedPayload ms policy payload) f = false := by
      unfold hasKey
      rw [hprepnone]
      rfl
    have herr := baseValidate_error_of_uncovered ms (preparedPayload ms policy payload)
      f hreq hprepkf
    have hmv : validationOk (model_validate ms policy payload) = false := by
      simp only [model_validate]
      rw [herr]
      dsimp only
      rw [hallow]
      simp [validationOk]
    exact hmv

end StrictModel

namespace StrictModel

/-- Witness for the amended C3 theorem at concrete models: the spec's
end-to-end override scenario, a payload missing two repairable required
fields with the list-typed one receiving the empty list, an enumeration
deriving its first member, and an allow_missing=false rejection. -/
theorem model_validate_lenient_defaults_witness :
    validatedField (model_validate
        ⟨[⟨"purpose", FieldType.strT, none, none⟩, ⟨"topic", FieldType.strT, none, none⟩]⟩
        ⟨[], [("topic", PValue.vStr "TBD"), ("purpose", PValue.vStr "other")], true⟩ [])
        "purpose"
      = some (PValue.vStr "other")
    ∧ validatedField (model_validate
        ⟨[⟨"items", FieldType.listT, none, none⟩, ⟨"note", FieldType.strT, none, none⟩]⟩
        ⟨[], [], true⟩ []) "items"
      = some (PValue.vList [])
    ∧ _derive_default ⟨[⟨"e", FieldType.enumT ["x", "y"], none, none⟩]⟩ "e"
      = some (PValue.vEnum "x")
    ∧ validationOk (model_validate ⟨[⟨"a", FieldType.strT, none, none⟩]⟩
        ⟨[], [], false⟩ []) = false := by
  refine ⟨?_, ?_, ?_, ?_⟩
  · exact (model_validate_lenient_defaults.1
      ⟨[⟨"purpose", FieldType.strT, none, none⟩, ⟨"topic", FieldType.strT, none, none⟩]⟩
      ⟨[], [("topic", PValue.vStr "TBD"), ("purpose", PValue.vStr "other")], true⟩
      [] "purpose" (PValue.vStr "other") (by rfl) (by rfl) (by rfl)
      (by
        intro g hg
        have hg' : g = "purpose" ∨ g = "topic" := by
          simpa [requiredFields] using hg
        rcases hg' with rfl | rfl
        · exact Or.inr (by rfl)
        · exact Or.inr (by rfl))).2
  · exact (model_validate_lenient_defaults.2.1
      ⟨[⟨"items", FieldType.listT, none, none⟩, ⟨"note", FieldType.strT, none, none⟩]⟩
      ⟨[], [], true⟩ [] "items" (PValue.vList []) (by rfl)
      (by
        intro g hg hgk
        have hg' : g = "items" ∨ g = "note" := by simpa [requiredFields] using hg
        rcases hg' with rfl | rfl
        · exact ⟨rfl, rfl⟩
        · exact ⟨rfl, rfl⟩)
      (by simp [requiredFields]) (by rfl) (by rfl)).2
  · exact (model_validate_lenient_defaults.2.2.1
      ⟨[⟨"e", FieldType.enumT ["x", "y"], none, none⟩]⟩ "e"
      ⟨"e", FieldType.enumT ["x", "y"], none, none⟩ (by rfl) (by rfl) (by rfl)).1
      "x" ["y"] (by rfl)
  · exact model_validate_lenient_defaults.2.2.2
      ⟨[⟨"a", FieldType.strT, none, none⟩]⟩ ⟨[], [], false⟩ [] "a"
      (by rfl) (by simp [requiredFields]) (by rfl) (by rfl)

/-- C3 counterexample: (i) a payload simultaneously missing an
override-covered required field (`a`) and another required field (`b`) does
not validate to an instance carrying the override - the repair pass rebuilds
from the original payload, drops the injected override, and the second
validation fails on `a`; (ii) with allow_missing=false, a payload missing a
required field that has an override does not raise - the override is injected
before the first validation, which then succeeds. -/
theorem model_validate_override_lost_cex :
    model_validate
        ⟨[⟨"a", FieldType.strT, none, none⟩, ⟨"b", FieldType.strT, none, none⟩]⟩
        ⟨[], [("a", PValue.vStr "X")], true⟩ []
      = .error [{ errType := "missing", loc := ["a"] }]
    ∧ validatedField (model_validate
        ⟨[⟨"a", FieldType.strT, none, none⟩, ⟨"b", FieldType.strT, none, none⟩]⟩
        ⟨[], [("a", PValue.vStr "X")], true⟩ []) "a"
      ≠ some (PValue.vStr "X")
    ∧ validationOk (model_validate ⟨[⟨"a", FieldType.strT, none, none⟩]⟩
        ⟨[], [("a", PValue.vStr "X")], false⟩ []) = true := by
  refine ⟨rfl, ?_, rfl⟩
  rw [show validatedField (model_validate
      ⟨[⟨"a", FieldType.strT, none, none⟩, ⟨"b", FieldType.strT, none, none⟩]⟩
      ⟨[], [("a", PValue.vStr "X")], true⟩ []) "a" = none from rfl]
  simp

/-- C4 amended: when the first validation fails with missing fields and the
policy allows missing, `model_validate` patches the original payload for
exactly the reported missing fields and returns whatever the single
re-validation produces - including its error, not the original one; no
further repair is attempted. -/
theorem model_validate_single_repair (ms : ModelSpec) (policy : Policy)
    (payload : Payload) (errs : List ValErrorEntry)
    (hallow : policy.allow_missing = true)
    (herr : baseValidate ms (preparedPayload ms policy payload) = .error errs)
    (hne : _collect_missing errs ≠ []) :
    model_validate ms policy payload
      = baseValidate ms
          (_inject_defaults ms policy payload (some (_collect_missing errs))) := by
  simp only [model_validate]
  rw [herr]
  dsimp only
  rw [hallow]
  simp only [Bool.not_true, Bool.false_eq_true, if_false]
  cases hm : _collect_missing errs with
  | nil => exact absurd hm hne
  | cons x xs => simp

/-- Witness for the amended C4 theorem at a concrete model. -/
theorem model_validate_single_repair_witness :
    model_validate ⟨[⟨"a", FieldType.strT, none, none⟩]⟩ ⟨[], [], true⟩ []
      = baseValidate ⟨[⟨"a", FieldType.strT, none, none⟩]⟩
          (_inject_defaults ⟨[⟨"a", FieldType.strT, none, none⟩]⟩ ⟨[], [], true⟩ []
            (some (_collect_missing [{ errType := "missing", loc := ["a"] }]))) :=
  model_validate_single_repair ⟨[⟨"a", FieldType.strT, none, none⟩]⟩ ⟨[], [], true⟩
    [] [{ errType := "missing", loc := ["a"] }] rfl rfl (by decide)

/-- C4 counterexample: when the patched payload still fails, the propagated
error is the second validation's error (missing `b` only), not the original
first-validation error (missing `a` and `b`). -/
theorem model_validate_second_error_cex :
    model_validate
        ⟨[⟨"a", FieldType.strT, none, none⟩, ⟨"b", FieldType.otherT, none, none⟩]⟩
        ⟨[], [], true⟩ []
      = .error [{ errType := "missing", loc := ["b"] }]
    ∧ baseValidate
        ⟨[⟨"a", FieldType.strT, none, none⟩, ⟨"b", FieldType.otherT, none, none⟩]⟩
        (preparedPayload
          ⟨[⟨"a", FieldType.strT, none, none⟩, ⟨"b", FieldType.otherT, none, none⟩]⟩
          ⟨[], [], true⟩ [])
      = .error [{ errType := "missing", loc := ["a"] }, { errType := "missing", loc := ["b"] }]
    ∧ ([{ errType := "missing", loc := ["b"] }] : List ValErrorEntry)
        ≠ [{ errType := "missing", loc := ["a"] }, { errType := "missing", loc := ["b"] }] := by
  exact ⟨rfl, rfl, by decide⟩

end StrictModel
